import Mathlib

/-!
Verification of the dispatch matching engine of the isucon14 ride-hailing
backend (`internal_handlers.go`).  The relational store is embedded as lists
of rows, the SQL reads of `internalGetMatching` as list functions, and the
Hungarian assignment solver (`hungarianMethod`) as a fuel-indexed state
machine over `Nat`-indexed arrays modelled as functions.  Machine integers
are modelled as unbounded `Int`; all arithmetic performed by the code on the
values reachable in the claims stays far below 2^63, where Go `int` and
`Int` agree.
-/

/-- Pointwise array update, modelling `a[k] = x` on a Go slice. -/
def upd {α : Type} (f : Nat → α) (k : Nat) (x : α) : Nat → α :=
  fun j => if j = k then x else f j

/-- A row of the `rides` table (fields used by the matching engine). -/
structure Ride where
  id : String
  pickupLatitude : Int
  pickupLongitude : Int
  destinationLatitude : Int
  destinationLongitude : Int
  chairId : Option String
  createdAt : Nat
deriving DecidableEq

/-- A row of the append-only `ride_statuses` table. -/
structure RideStatus where
  id : String
  rideId : String
  status : String
  createdAt : Nat
deriving DecidableEq

/-- A row of the `chairs` table (fields used by the matching engine);
`lastLatitude`/`lastLongitude` model the nullable columns. -/
structure Chair where
  id : String
  model : String
  isActive : Bool
  lastLatitude : Option Int
  lastLongitude : Option Int
deriving DecidableEq

/-- A row of the `chair_models` table. -/
structure ChairModel where
  name : String
  speed : Int
deriving DecidableEq

/-- The relational store state read and written by a matching cycle. -/
structure Store where
  rides : List Ride
  rideStatuses : List RideStatus
  chairs : List Chair
  chairModels : List ChairModel
deriving DecidableEq

/-- All status rows of one ride (`WHERE ride_id = ?`). -/
def statusesOf (s : Store) (rid : String) : List RideStatus :=
  s.rideStatuses.filter (fun e => e.rideId == rid)

/-- `MAX(created_at)` over a status group (0 on the empty group; the empty
group never survives the inner join). -/
def maxCreated (l : List RideStatus) : Nat :=
  l.foldl (fun acc e => max acc e.createdAt) 0

/-- The rows produced by joining a ride with `MAX(created_at)`: all its
status rows carrying the maximal timestamp. -/
def latestRows (s : Store) (rid : String) : List RideStatus :=
  let l := statusesOf s rid
  l.filter (fun e => e.createdAt == maxCreated l)

/-- Rows of the eligibility query before `ORDER BY`: one copy of a ride per
latest status row with status `MATCHING`, keeping only rides with
`chair_id IS NULL`. -/
def matchingJoinRows (s : Store) : List Ride :=
  s.rides.flatMap (fun r =>
    if r.chairId = none then
      ((latestRows s r.id).filter (fun e => e.status == "MATCHING")).map (fun _ => r)
    else [])

/-- The eligibility read: `MATCHING`-and-unassigned rides,
`ORDER BY r.created_at`. -/
def eligibleRides (s : Store) : List Ride :=
  List.insertionSort (fun a b => a.createdAt ≤ b.createdAt) (matchingJoinRows s)

instance : IsTotal Ride (fun a b => a.createdAt ≤ b.createdAt) :=
  ⟨fun a b => Nat.le_total _ _⟩

instance : IsTrans Ride (fun a b => a.createdAt ≤ b.createdAt) :=
  ⟨fun _ _ _ => Nat.le_trans⟩

/-- Chair ids excluded by the `NOT IN` subquery: chairs referenced by some
ride whose latest status is not `COMPLETED`. -/
def busyChairIds (s : Store) : List String :=
  s.rides.flatMap (fun r =>
    match r.chairId with
    | some cid =>
      if (latestRows s r.id).any (fun e => !(e.status == "COMPLETED")) then [cid] else []
    | none => [])

/-- The free-chair query: active chairs not bound to an incomplete ride,
joined with `chair_models` for the speed. -/
def chairsWithModel (s : Store) : List (Chair × Int) :=
  s.chairs.flatMap (fun c =>
    if c.isActive && !((busyChairIds s).contains c.id) then
      (s.chairModels.filter (fun m => m.name == c.model)).map (fun m => (c, m.speed))
    else [])

/-- A candidate worker after the in-memory filter of the Go handler. -/
structure FreeChair where
  id : String
  speed : Int
  lastLat : Int
  lastLon : Int
deriving DecidableEq

/-- The in-memory filter: drop chairs with a NULL coordinate or
non-positive speed. -/
def freeChairs (s : Store) : List FreeChair :=
  (chairsWithModel s).flatMap (fun cm =>
    match cm.1.lastLatitude, cm.1.lastLongitude with
    | some la, some lo => if cm.2 ≤ 0 then [] else [⟨cm.1.id, cm.2, la, lo⟩]
    | _, _ => [])

/-- Go's `abs` helper. -/
def goAbs (a : Int) : Int := if a < 0 then -a else a

/-- `calculateDistance`: Manhattan distance between two coordinates. -/
def calculateDistance (aLatitude aLongitude bLatitude bLongitude : Int) : Int :=
  goAbs (aLatitude - bLatitude) + goAbs (aLongitude - bLongitude)

/-- Sentinel cost used to pad the cost matrix to a square. -/
def largeCost : Int := 9999999

/-- Placeholder rows for out-of-range list reads (never reached under the
index guards of the code). -/
def defaultRide : Ride := ⟨"", 0, 0, 0, 0, none, 0⟩

/-- Placeholder free chair for out-of-range list reads. -/
def defaultChair : FreeChair := ⟨"", 1, 0, 0⟩

/-- The cost of one (ride, chair) cell:
`(dist(chair→pickup) + dist(pickup→destination)*2) / speed`, with Go's
truncating integer division. -/
def rideChairCost (r : Ride) (c : FreeChair) : Int :=
  let distToPickup :=
    calculateDistance c.lastLat c.lastLon r.pickupLatitude r.pickupLongitude
  let distToDestination :=
    calculateDistance r.pickupLatitude r.pickupLongitude
      r.destinationLatitude r.destinationLongitude
  Int.tdiv (distToPickup + distToDestination * 2) c.speed

/-- The padded square cost matrix: real cells for `i < n`, `j < m`, the
sentinel elsewhere. -/
def costMatrix (elig : List Ride) (fc : List FreeChair) (i j : Nat) : Int :=
  if i < elig.length ∧ j < fc.length then
    rideChairCost (elig.getD i defaultRide) (fc.getD j defaultChair)
  else largeCost

/-- Result of one scan of the unused columns (the `for j := 1; j <= n` loop
inside the inner loop of `hungarianMethod`). -/
structure ScanOut where
  minv : Nat → Int
  way : Nat → Nat
  delta : Int
  j1 : Nat

/-- One scan over columns `1..n`: update `minv`/`way` with the reduced cost
of the current row and locate the minimum. -/
def scanCols (c : Nat → Nat → Int) (n : Nat) (used : Nat → Bool) (u v : Nat → Int)
    (i0 j0 : Nat) (minv0 : Nat → Int) (way0 : Nat → Nat) : ScanOut :=
  (List.range n).foldl (fun acc jm1 =>
    let j := jm1 + 1
    if used j then acc
    else
      let cur := c (i0 - 1) (j - 1) - u i0 - v j
      let minv := if cur < acc.minv j then upd acc.minv j cur else acc.minv
      let way := if cur < acc.minv j then upd acc.way j j0 else acc.way
      if minv j < acc.delta then ⟨minv, way, minv j, j⟩ else ⟨minv, way, acc.delta, acc.j1⟩)
    ⟨minv0, way0, 1000000000, 0⟩

/-- The potential/`minv` update (`for j := 0; j <= n` loop): add `delta` on
the used columns' rows, subtract it from unused `minv`. -/
def applyDelta (n : Nat) (used : Nat → Bool) (p : Nat → Nat) (delta : Int)
    (u v minv : Nat → Int) : (Nat → Int) × (Nat → Int) × (Nat → Int) :=
  (List.range (n + 1)).foldl (fun acc j =>
    if used j then (upd acc.1 (p j) (acc.1 (p j) + delta), upd acc.2.1 j (acc.2.1 j - delta), acc.2.2)
    else (acc.1, acc.2.1, upd acc.2.2 j (acc.2.2 j - delta)))
    (u, v, minv)

/-- Result of the inner `for {}` loop of a phase: new potentials, the `way`
tree and the breaking column `j0` (with `p j0 = 0`). -/
structure InnerOut where
  u : Nat → Int
  v : Nat → Int
  way : Nat → Nat
  j0 : Nat

/-- The inner loop of one phase, fuel-indexed (`none` models a run that
needs more iterations than the fuel allows; the Go loop has no bound). -/
def innerLoop (c : Nat → Nat → Int) (n : Nat) (p : Nat → Nat) :
    Nat → (Nat → Int) → (Nat → Int) → (Nat → Int) → (Nat → Nat) → (Nat → Bool) → Nat →
    Option InnerOut
  | 0, _, _, _, _, _, _ => none
  | fuel + 1, u, v, minv, way, used, j0 =>
    let used := upd used j0 true
    let i0 := p j0
    let so := scanCols c n used u v i0 j0 minv way
    let uvm := applyDelta n used p so.delta u v so.minv
    let j0 := so.j1
    if p j0 = 0 then some ⟨uvm.1, uvm.2.1, so.way, j0⟩
    else innerLoop c n p fuel uvm.1 uvm.2.1 uvm.2.2 so.way used j0

/-- The augmenting `for {}` loop: walk the `way` pointers back to column 0,
shifting the matching, fuel-indexed. -/
def augmentLoop (way : Nat → Nat) : Nat → (Nat → Nat) → Nat → Option (Nat → Nat)
  | 0, _, _ => none
  | fuel + 1, p, j0 =>
    let j1 := way j0
    let p := upd p j0 (p j1)
    if j1 = 0 then some p else augmentLoop way fuel p j1

/-- One phase of `hungarianMethod` (insert row `i`). -/
def runPhase (c : Nat → Nat → Int) (n fuel i : Nat)
    (u v : Nat → Int) (p way : Nat → Nat) :
    Option ((Nat → Int) × (Nat → Int) × (Nat → Nat) × (Nat → Nat)) :=
  let p := upd p 0 i
  let minv : Nat → Int := fun j => if j = 0 then 0 else 1000000000
  let used : Nat → Bool := fun _ => false
  match innerLoop c n p fuel u v minv way used 0 with
  | none => none
  | some io =>
    match augmentLoop io.way fuel p io.j0 with
    | none => none
    | some p2 => some (io.u, io.v, p2, io.way)

/-- The outer `for i := 1; i <= n` loop. -/
def runPhasesFrom (c : Nat → Nat → Int) (n fuel : Nat) :
    List Nat → ((Nat → Int) × (Nat → Int) × (Nat → Nat) × (Nat → Nat)) →
    Option ((Nat → Int) × (Nat → Int) × (Nat → Nat) × (Nat → Nat))
  | [], st => some st
  | i :: rest, st =>
    match runPhase c n fuel i st.1 st.2.1 st.2.2.1 st.2.2.2 with
    | none => none
    | some st2 => runPhasesFrom c n fuel rest st2

/-- `hungarianMethod` over an `n × n` cost function: run all phases, then
read the answer out of `p` (`res[p[j]-1] = j-1`).  The final range check
models the Go slice bounds check on `res[p[j]-1]` (a violation panics in
Go, i.e. produces no value). -/
def hungarianMethod (fuel : Nat) (c : Nat → Nat → Int) (n : Nat) : Option (List Nat) :=
  match runPhasesFrom c n fuel ((List.range n).map (· + 1))
      (fun _ => 0, fun _ => 0, fun _ => 0, fun _ => 0) with
  | none => none
  | some st =>
    let p := st.2.2.1
    if (List.range n).all (fun jm1 => decide (1 ≤ p (jm1 + 1)) && decide (p (jm1 + 1) ≤ n)) then
      some ((List.range n).map
        ((List.range n).foldl (fun res jm1 => upd res (p (jm1 + 1) - 1) jm1) (fun _ => 0)))
    else none

/-- The `(RideID, ChairID)` pairs kept by the commit filter:
`i < n && j >= 0 && j < m && costMatrix[i][j] < largeCost`. -/
def computeAssignments (elig : List Ride) (fc : List FreeChair) (res : List Nat) :
    List (String × String) :=
  res.enum.flatMap (fun ij =>
    if ij.1 < elig.length ∧ ij.2 < fc.length ∧ costMatrix elig fc ij.1 ij.2 < largeCost then
      [((elig.getD ij.1 defaultRide).id, (fc.getD ij.2 defaultChair).id)]
    else [])

/-- The commit write loop: for each assignment,
`UPDATE rides SET chair_id = ? WHERE id = ?` (no guard on the old value). -/
def applyAssignments (s : Store) (asgs : List (String × String)) : Store :=
  asgs.foldl (fun s a =>
    { s with rides := s.rides.map (fun r =>
        if r.id == a.1 then { r with chairId := some a.2 } else r) }) s

/-- Outcome of one matching cycle: the committed store, the assignment batch
and the HTTP status written. -/
structure CycleOut where
  store : Store
  assignments : List (String × String)
  status : Nat
deriving DecidableEq

/-- One matching cycle (`internalGetMatching`), fuel-indexed through the
solver.  The `len(rides) == 0` early return of the source is dead code (it
sits inside `if err != nil` and an empty result is not an error), so an
empty eligibility read still reaches the solver. -/
def internalGetMatching (fuel : Nat) (s : Store) : Option CycleOut :=
  let elig := eligibleRides s
  let fc := freeChairs s
  if fc.length = 0 then some ⟨s, [], 204⟩
  else
    let size := max elig.length fc.length
    match hungarianMethod fuel (costMatrix elig fc) size with
    | none => none
    | some res =>
      let asgs := computeAssignments elig fc res
      if asgs.length = 0 then some ⟨s, [], 204⟩
      else some ⟨applyAssignments s asgs, asgs, 204⟩

/-- Fold step selecting the event with the later timestamp (ties keep the
earlier event; irrelevant on well-formed stores). -/
def pickLater (acc : Option RideStatus) (e : RideStatus) : Option RideStatus :=
  match acc with
  | none => some e
  | some b => if b.createdAt < e.createdAt then some e else some b

/-- The latest status of a ride as the spec describes it: the status label
of the event with the latest timestamp (spec-side notion used to state the
eligibility contract). -/
def latestStatusSpec (s : Store) (rid : String) : Option String :=
  ((statusesOf s rid).foldl pickLater none).map (fun e => e.status)

/-- Store well-formedness: primary keys are unique and, per ride, status
timestamps are distinct (the spec's "monotonic by timestamp per ride"). -/
def WFStore (s : Store) : Prop :=
  (s.rides.map Ride.id).Nodup ∧
  (s.chairs.map Chair.id).Nodup ∧
  (s.chairModels.map ChairModel.name).Nodup ∧
  ∀ r ∈ s.rides, ((statusesOf s r.id).map RideStatus.createdAt).Nodup

/-- View a list-of-rows matrix as a total cost function (0 outside the
bounds; the solver never reads outside `n × n`). -/
def matOf (l : List (List Int)) : Nat → Nat → Int :=
  fun i j => (l.getD i []).getD j 0

/-- 2×2 matrix on which the solver's output is not minimal (entries at and
above the internal `1000000000` bound). -/
def matC4 : List (List Int) := [[1, 1000000000], [1, 2000000000]]

/-- 2×2 matrix on which one phase's inner loop needs more than `n + 1`
iterations. -/
def matC10 : List (List Int) := [[2000000000, 0], [1000000000, -1184087519]]

/-- Concrete store: one `MATCHING` ride and one free chair, distance to
pickup 2, pickup→destination distance 2, speed 2, cost (2 + 2*2)/2 = 3. -/
def rideA : Ride := ⟨"r1", 1, 1, 2, 2, none, 1⟩

/-- Status row: `rideA` is `MATCHING`. -/
def statusA : RideStatus := ⟨"s1", "r1", "MATCHING", 1⟩

/-- A free chair at the origin. -/
def chairA : Chair := ⟨"c1", "m1", true, some 0, some 0⟩

/-- Chair model of speed 2. -/
def modelA : ChairModel := ⟨"m1", 2⟩

/-- Store on which a cycle commits exactly one assignment. -/
def store1 : Store := ⟨[rideA], [statusA], [chairA], [modelA]⟩

/-- Ride whose pickup is 9999999 away from the origin and whose destination
equals its pickup: its real cost equals the padding sentinel. -/
def rideB : Ride := ⟨"r2", 9999999, 0, 9999999, 0, none, 1⟩

/-- Status row: `rideB` is `MATCHING`. -/
def statusB : RideStatus := ⟨"s2", "r2", "MATCHING", 1⟩

/-- A free chair at the origin with speed 1. -/
def chairB : Chair := ⟨"c2", "m2", true, some 0, some 0⟩

/-- Chair model of speed 1. -/
def modelB : ChairModel := ⟨"m2", 1⟩

/-- Store whose only real (ride, chair) cell costs exactly `largeCost`. -/
def store2 : Store := ⟨[rideB], [statusB], [chairB], [modelB]⟩

/-- The empty store. -/
def store0 : Store := ⟨[], [], [], []⟩

/-- A ride that already carries a worker reference. -/
def rideC : Ride := ⟨"r3", 0, 0, 0, 0, some "cOld", 1⟩

/-- Store containing only the already-assigned `rideC`. -/
def store3 : Store := ⟨[rideC], [], [], []⟩

/-- A second ride, already assigned to worker `cZ`. -/
def rideE : Ride := ⟨"r9", 5, 5, 6, 6, some "cZ", 9⟩

/-- Store with one matchable ride and one already-assigned ride. -/
def store5 : Store := ⟨[rideA, rideE], [statusA], [chairA], [modelA]⟩

/-- The outcome of a cycle on `store1` (one committed assignment). -/
def cycleOut1 : CycleOut :=
  ⟨⟨[⟨"r1", 1, 1, 2, 2, some "c1", 1⟩], [statusA], [chairA], [modelA]⟩, [("r1", "c1")], 204⟩

/-- The outcome of a cycle on `store5`: the matchable ride is assigned, the
already-assigned ride is untouched. -/
def cycleOut5 : CycleOut :=
  ⟨⟨[⟨"r1", 1, 1, 2, 2, some "c1", 1⟩, rideE], [statusA], [chairA], [modelA]⟩,
    [("r1", "c1")], 204⟩

/-- The values of the matching array `p` on columns `1..n`, as a list. -/
def colList (n : Nat) (p : Nat → Nat) : List Nat :=
  (List.range n).map (fun jm1 => p (jm1 + 1))

/-- The same column values as a multiset (the augmenting step permutes
them up to one replacement). -/
def colMS (n : Nat) (p : Nat → Nat) : Multiset Nat :=
  (colList n p : Multiset Nat)

/-- All `way` pointers stay in `0..n` (they are only ever assigned column
indices). -/
def WayBound (n : Nat) (w : Nat → Nat) : Prop := ∀ x, w x ≤ n

/-! ### Basic facts about the commit write loop and the cycle control flow -/

/-- The per-row effect of one `UPDATE rides SET chair_id = ? WHERE id = ?`. -/
def assignStep (r : Ride) (a : String × String) : Ride :=
  if r.id == a.1 then { r with chairId := some a.2 } else r

theorem applyAssignments_rideStatuses (s : Store) (asgs : List (String × String)) :
    (applyAssignments s asgs).rideStatuses = s.rideStatuses := by
  induction asgs generalizing s with
  | nil => rfl
  | cons a t ih => simpa [applyAssignments, List.foldl_cons] using ih _

theorem applyAssignments_rides (s : Store) (asgs : List (String × String)) :
    (applyAssignments s asgs).rides = s.rides.map (fun r => asgs.foldl assignStep r) := by
  induction asgs generalizing s with
  | nil => simp [applyAssignments]
  | cons a t ih =>
    have h := ih { s with rides := s.rides.map (fun r => assignStep r a) }
    simpa [applyAssignments, List.foldl_cons, List.map_map, Function.comp, assignStep] using h

theorem assignStep_id (r : Ride) (a : String × String) : (assignStep r a).id = r.id := by
  unfold assignStep; split <;> rfl

theorem foldl_assignStep_id (asgs : List (String × String)) (r : Ride) :
    (asgs.foldl assignStep r).id = r.id := by
  induction asgs generalizing r with
  | nil => rfl
  | cons a t ih => rw [List.foldl_cons, ih, assignStep_id]

theorem foldl_assignStep_of_notMem (asgs : List (String × String)) (r : Ride)
    (h : ∀ a ∈ asgs, r.id ≠ a.1) : asgs.foldl assignStep r = r := by
  induction asgs generalizing r with
  | nil => rfl
  | cons a t ih =>
    rw [List.foldl_cons]
    have hne : r.id ≠ a.1 := h a (List.mem_cons_self _ _)
    have : assignStep r a = r := by simp [assignStep, hne]
    rw [this]
    exact ih r (fun b hb => h b (List.mem_cons_of_mem _ hb))

theorem foldl_assignStep_of_mem (asgs : List (String × String)) (r : Ride)
    (a : String × String) (ha : a ∈ asgs) (hnd : (asgs.map Prod.fst).Nodup)
    (hid : r.id = a.1) : (asgs.foldl assignStep r).chairId = some a.2 := by
  induction asgs generalizing r with
  | nil => cases ha
  | cons b t ih =>
    rw [List.foldl_cons]
    rcases List.mem_cons.mp ha with rfl | hat
    · have hstep : assignStep r a = { r with chairId := some a.2 } := by
        simp [assignStep, hid]
      rw [hstep]
      have hnotin : ∀ c ∈ t, a.1 ≠ c.1 := by
        intro c hc hEq
        have : a.1 ∈ t.map Prod.fst := hEq ▸ List.mem_map_of_mem Prod.fst hc
        exact (List.nodup_cons.mp hnd).1 this
      have := foldl_assignStep_of_notMem t { r with chairId := some a.2 }
        (by intro c hc; show r.id ≠ c.1; rw [hid]; exact hnotin c hc)
      rw [this]
    · have hb : b.1 ≠ a.1 := by
        intro hEq
        have : b.1 ∈ t.map Prod.fst := hEq ▸ List.mem_map_of_mem Prod.fst hat
        exact (List.nodup_cons.mp hnd).1 this
      have hstep : assignStep r b = r := by simp [assignStep, hid, hb.symm]
      rw [hstep]
      exact ih r hat (List.nodup_cons.mp hnd).2 hid

/-- Control-flow case analysis for a successful matching cycle. -/
theorem internalGetMatching_cases (fuel : Nat) (s : Store) (out : CycleOut)
    (h : internalGetMatching fuel s = some out) :
    out.status = 204 ∧
    ((out.store = s ∧ out.assignments = []) ∨
     (out.assignments ≠ [] ∧
      out.store = applyAssignments s out.assignments ∧
      ∃ res, hungarianMethod fuel (costMatrix (eligibleRides s) (freeChairs s))
          (max (eligibleRides s).length (freeChairs s).length) = some res ∧
        out.assignments = computeAssignments (eligibleRides s) (freeChairs s) res)) := by
  unfold internalGetMatching at h
  dsimp only at h
  split at h
  · cases h; exact ⟨rfl, Or.inl ⟨rfl, rfl⟩⟩
  · rename_i hfc
    cases hh : hungarianMethod fuel (costMatrix (eligibleRides s) (freeChairs s))
        (max (eligibleRides s).length (freeChairs s).length) with
    | none => rw [hh] at h; cases h
    | some res =>
      rw [hh] at h
      simp only at h
      split at h
      · cases h; exact ⟨rfl, Or.inl ⟨rfl, rfl⟩⟩
      · rename_i hlen
        cases h
        refine ⟨rfl, Or.inr ⟨?_, rfl, res, rfl, rfl⟩⟩
        intro hnil
        exact hlen (by simpa using hnil)

/-! ### Membership facts for the eligibility and candidate reads -/

theorem mem_matchingJoinRows {s : Store} {r : Ride} (h : r ∈ matchingJoinRows s) :
    r ∈ s.rides ∧ r.chairId = none ∧
      ∃ e ∈ latestRows s r.id, e.status = "MATCHING" := by
  unfold matchingJoinRows at h
  rcases List.mem_flatMap.mp h with ⟨r0, hr0, hbody⟩
  by_cases hc : r0.chairId = none
  · rw [if_pos hc] at hbody
    rcases List.mem_map.mp hbody with ⟨e, he, rfl⟩
    rcases List.mem_filter.mp he with ⟨heMem, heSt⟩
    exact ⟨hr0, hc, e, heMem, by simpa using heSt⟩
  · rw [if_neg hc] at hbody
    cases hbody

theorem mem_eligibleRides {s : Store} {r : Ride} (h : r ∈ eligibleRides s) :
    r ∈ s.rides ∧ r.chairId = none ∧
      ∃ e ∈ latestRows s r.id, e.status = "MATCHING" :=
  mem_matchingJoinRows ((List.perm_insertionSort _ _).mem_iff.mp h)

theorem mem_freeChairs {s : Store} {x : FreeChair} (h : x ∈ freeChairs s) :
    ∃ c ∈ s.chairs, ∃ mo ∈ s.chairModels,
      x.id = c.id ∧ x.speed = mo.speed ∧ mo.name = c.model ∧
      c.isActive = true ∧ c.lastLatitude = some x.lastLat ∧
      c.lastLongitude = some x.lastLon ∧ 0 < mo.speed := by
  unfold freeChairs at h
  rcases List.mem_flatMap.mp h with ⟨cm, hcm, hbody⟩
  unfold chairsWithModel at hcm
  rcases List.mem_flatMap.mp hcm with ⟨c, hc, hcbody⟩
  by_cases hact : (c.isActive && !((busyChairIds s).contains c.id)) = true
  · rw [if_pos hact] at hcbody
    rcases List.mem_map.mp hcbody with ⟨mo, hmo, rfl⟩
    rcases List.mem_filter.mp hmo with ⟨hmoMem, hmoName⟩
    rcases hla : c.lastLatitude with _ | la <;> rcases hlo : c.lastLongitude with _ | lo <;>
      simp only [hla, hlo] at hbody
    · cases hbody
    · cases hbody
    · cases hbody
    · by_cases hsp : mo.speed ≤ 0
      · rw [if_pos hsp] at hbody; cases hbody
      · rw [if_neg hsp] at hbody
        rcases List.mem_singleton.mp hbody with rfl
        refine ⟨c, hc, mo, hmoMem, rfl, rfl, by simpa using hmoName,
          (by simpa using hact : c.isActive = true ∧ _).1, by simpa using hla, by simpa using hlo,
          by omega⟩
  · rw [if_neg hact] at hcbody
    cases hcbody

theorem mem_computeAssignments {elig : List Ride} {fc : List FreeChair} {res : List Nat}
    {a : String × String} (h : a ∈ computeAssignments elig fc res) :
    ∃ ij ∈ res.enum, ij.1 < elig.length ∧ ij.2 < fc.length ∧
      costMatrix elig fc ij.1 ij.2 < largeCost ∧
      a = ((elig.getD ij.1 defaultRide).id, (fc.getD ij.2 defaultChair).id) := by
  unfold computeAssignments at h
  rcases List.mem_flatMap.mp h with ⟨ij, hij, hbody⟩
  by_cases hcond : ij.1 < elig.length ∧ ij.2 < fc.length ∧ costMatrix elig fc ij.1 ij.2 < largeCost
  · rw [if_pos hcond] at hbody
    rcases List.mem_singleton.mp hbody with rfl
    exact ⟨ij, hij, hcond.1, hcond.2.1, hcond.2.2, rfl⟩
  · rw [if_neg hcond] at hbody
    cases hbody

theorem computeAssignments_nil (fc : List FreeChair) (res : List Nat) :
    computeAssignments [] fc res = [] := by
  unfold computeAssignments
  refine List.flatMap_eq_nil_iff.mpr ?_
  intro ij _
  rw [if_neg]
  rintro ⟨h1, -⟩
  simp at h1

/-! ### Structure of the emitted assignment batch -/

theorem flatMap_ite_singleton {α β : Type} (l : List α) (P : α → Prop) [DecidablePred P]
    (f : α → β) :
    (l.flatMap fun x => if P x then [f x] else []) =
      (l.filter fun x => decide (P x)).map f := by
  induction l with
  | nil => rfl
  | cons a t ih =>
    by_cases h : P a <;> simp [List.flatMap_cons, List.filter_cons, h, ih]

theorem computeAssignments_eq (elig : List Ride) (fc : List FreeChair) (res : List Nat) :
    computeAssignments elig fc res =
      (res.enum.filter fun ij => decide (ij.1 < elig.length ∧ ij.2 < fc.length ∧
          costMatrix elig fc ij.1 ij.2 < largeCost)).map
        (fun ij => ((elig.getD ij.1 defaultRide).id, (fc.getD ij.2 defaultChair).id)) := by
  unfold computeAssignments
  exact flatMap_ite_singleton _ _ _

theorem computeAssignments_nil_fc (elig : List Ride) (res : List Nat) :
    computeAssignments elig [] res = [] := by
  rw [computeAssignments_eq]
  have : (res.enum.filter fun ij => decide (ij.1 < elig.length ∧ ij.2 < ([] : List FreeChair).length ∧
      costMatrix elig [] ij.1 ij.2 < largeCost)) = [] := by
    refine List.filter_eq_nil_iff.mpr ?_
    intro ij _
    simp
  rw [this]; rfl

theorem enum_filter_nodup {res : List Nat} (q : Nat × Nat → Bool) :
    (res.enum.filter q).Nodup := by
  have h1 : (res.enum.map Prod.fst).Nodup := by
    rw [List.enum_map_fst]; exact List.nodup_range _
  exact ((List.filter_sublist _).nodup (h1.of_map Prod.fst))

theorem mem_enum_eq_of_fst_eq {res : List Nat} {ij ij' : Nat × Nat}
    (h : ij ∈ res.enum) (h' : ij' ∈ res.enum) (hfst : ij.1 = ij'.1) : ij = ij' := by
  have g : res[ij.1]? = some ij.2 := List.mem_enum_iff_getElem?.mp h
  have g' : res[ij'.1]? = some ij'.2 := List.mem_enum_iff_getElem?.mp h'
  rw [← hfst] at g'
  have : ij.2 = ij'.2 := by
    have := g.symm.trans g'
    exact Option.some.inj this
  exact Prod.ext hfst this

theorem computeAssignments_fst_nodup (elig : List Ride) (fc : List FreeChair) (res : List Nat)
    (hnd : (elig.map Ride.id).Nodup) :
    ((computeAssignments elig fc res).map Prod.fst).Nodup := by
  rw [computeAssignments_eq, List.map_map]
  refine List.Nodup.map_on ?_ (enum_filter_nodup _)
  intro ij hij ij' hij' hEq
  have hm := List.mem_filter.mp hij
  have hm' := List.mem_filter.mp hij'
  have hb : ij.1 < elig.length ∧ ij.2 < fc.length ∧ _ := of_decide_eq_true hm.2
  have hb' : ij'.1 < elig.length ∧ ij'.2 < fc.length ∧ _ := of_decide_eq_true hm'.2
  have hgid : (elig.getD ij.1 defaultRide).id = (elig.getD ij'.1 defaultRide).id := by
    simpa using hEq
  rw [List.getD_eq_getElem elig defaultRide hb.1, List.getD_eq_getElem elig defaultRide hb'.1] at hgid
  have : elig[ij.1] = elig[ij'.1] :=
    List.inj_on_of_nodup_map hnd (List.getElem_mem _) (List.getElem_mem _) hgid
  have hfst : ij.1 = ij'.1 := by
    have hget : (elig.map Ride.id).get ⟨ij.1, by simpa using hb.1⟩ =
        (elig.map Ride.id).get ⟨ij'.1, by simpa using hb'.1⟩ := by
      rw [List.get_map, List.get_map]
      exact hgid
    exact congrArg Fin.val ((List.Nodup.get_inj_iff hnd).mp hget)
  exact mem_enum_eq_of_fst_eq hm.1 hm'.1 hfst

theorem computeAssignments_snd_nodup (elig : List Ride) (fc : List FreeChair) (res : List Nat)
    (hres : res.Nodup) (hnd : (fc.map FreeChair.id).Nodup) :
    ((computeAssignments elig fc res).map Prod.snd).Nodup := by
  rw [computeAssignments_eq, List.map_map]
  refine List.Nodup.map_on ?_ (enum_filter_nodup _)
  intro ij hij ij' hij' hEq
  have hm := List.mem_filter.mp hij
  have hm' := List.mem_filter.mp hij'
  have hb : ij.1 < elig.length ∧ ij.2 < fc.length ∧ _ := of_decide_eq_true hm.2
  have hb' : ij'.1 < elig.length ∧ ij'.2 < fc.length ∧ _ := of_decide_eq_true hm'.2
  have hgid : (fc.getD ij.2 defaultChair).id = (fc.getD ij'.2 defaultChair).id := by
    simpa using hEq
  rw [List.getD_eq_getElem fc defaultChair hb.2.1, List.getD_eq_getElem fc defaultChair hb'.2.1] at hgid
  have hsnd : ij.2 = ij'.2 := by
    have hget : (fc.map FreeChair.id).get ⟨ij.2, by simpa using hb.2.1⟩ =
        (fc.map FreeChair.id).get ⟨ij'.2, by simpa using hb'.2.1⟩ := by
      rw [List.get_map, List.get_map]
      exact hgid
    exact congrArg Fin.val ((List.Nodup.get_inj_iff hnd).mp hget)
  have g : res[ij.1]? = some ij.2 := List.mem_enum_iff_getElem?.mp hm.1
  have g' : res[ij'.1]? = some ij'.2 := List.mem_enum_iff_getElem?.mp hm'.1
  have hilt : ij.1 < res.length := by
    by_contra hge
    rw [List.getElem?_eq_none (by omega)] at g; cases g
  have hilt' : ij'.1 < res.length := by
    by_contra hge
    rw [List.getElem?_eq_none (by omega)] at g'; cases g'
  have hv : res[ij.1] = ij.2 := by
    have := List.getElem?_eq_getElem hilt
    rw [this] at g; exact Option.some.inj g
  have hv' : res[ij'.1] = ij'.2 := by
    have := List.getElem?_eq_getElem hilt'
    rw [this] at g'; exact Option.some.inj g'
  have hfst : ij.1 = ij'.1 := by
    have hvv : res.get ⟨ij.1, hilt⟩ = res.get ⟨ij'.1, hilt'⟩ := by
      rw [List.get_eq_getElem, List.get_eq_getElem, hv, hv', hsnd]
    exact congrArg Fin.val ((List.Nodup.get_inj_iff hres).mp hvv)
  exact mem_enum_eq_of_fst_eq hm.1 hm'.1 hfst

/-! ### Eligibility under well-formed stores -/

theorem filter_beq_length_le {α κ : Type} [BEq κ] [LawfulBEq κ] (l : List α) (f : α → κ)
    (hnd : (l.map f).Nodup) (k : κ) : (l.filter fun e => f e == k).length ≤ 1 := by
  induction l with
  | nil => simp
  | cons a t ih =>
    rw [List.map_cons, List.nodup_cons] at hnd
    rw [List.filter_cons]
    by_cases hk : (f a == k) = true
    · rw [if_pos hk]
      have hfa : f a = k := eq_of_beq hk
      have hnil : (t.filter fun e => f e == k) = [] := by
        refine List.filter_eq_nil_iff.mpr ?_
        intro e he hbe
        have hfe : f e = k := eq_of_beq hbe
        refine hnd.1 ?_
        rw [hfa, ← hfe]
        exact List.mem_map_of_mem f he
      simp [hnil]
    · rw [if_neg hk]
      exact ih hnd.2

theorem flatMap_sublist_of_le_one {α : Type} (l : List α) (g : α → List α)
    (h : ∀ r ∈ l, g r = [] ∨ g r = [r]) : (l.flatMap g).Sublist l := by
  induction l with
  | nil => simp
  | cons a t ih =>
    rw [List.flatMap_cons]
    rcases h a (List.mem_cons_self a t) with ha | ha
    · rw [ha, List.nil_append]
      exact (ih fun r hr => h r (List.mem_cons_of_mem _ hr)).cons _
    · rw [ha, List.singleton_append]
      exact (ih fun r hr => h r (List.mem_cons_of_mem _ hr)).cons₂ _

theorem matchingJoinRows_sublist (s : Store)
    (hWF : ∀ r ∈ s.rides, ((statusesOf s r.id).map RideStatus.createdAt).Nodup) :
    (matchingJoinRows s).Sublist s.rides := by
  unfold matchingJoinRows
  refine flatMap_sublist_of_le_one _ _ ?_
  intro r hr
  by_cases hc : r.chairId = none
  · rw [if_pos hc]
    have hle : ((latestRows s r.id).filter fun e => e.status == "MATCHING").length ≤ 1 := by
      refine le_trans (List.length_filter_le _ _) ?_
      unfold latestRows
      exact filter_beq_length_le _ RideStatus.createdAt (hWF r hr) _
    rcases hl : (latestRows s r.id).filter fun e => e.status == "MATCHING" with _ | ⟨e, t⟩
    · rw [hl]
      exact Or.inl rfl
    · rw [hl] at hle ⊢
      rcases t with _ | ⟨e2, t2⟩
      · exact Or.inr rfl
      · simp at hle
  · rw [if_neg hc]
    exact Or.inl rfl

theorem eligibleRides_id_nodup (s : Store) (hWF : WFStore s) :
    ((eligibleRides s).map Ride.id).Nodup := by
  have hsub : (matchingJoinRows s).Sublist s.rides := matchingJoinRows_sublist s hWF.2.2.2
  have h1 : ((matchingJoinRows s).map Ride.id).Nodup := (hsub.map Ride.id).nodup hWF.1
  have hperm : (eligibleRides s).Perm (matchingJoinRows s) := List.perm_insertionSort _ _
  exact ((hperm.map Ride.id).nodup_iff).mpr h1

/-! ### C5: the cost model -/

/-- C5 (counterexample): the claim says a cell's cost is
`dist(worker, pickup) / speed`.  On `store1` the worker is at (0,0) with
speed 2 and the ride goes (1,1) → (2,2): the claimed formula gives
`2 / 2 = 1`, but the code computes `(2 + 2*2) / 2 = 3` — the
destination leg, doubled, is part of the cost. -/
theorem C5_cost_counterexample :
    costMatrix (eligibleRides store1) (freeChairs store1) 0 0 = 3 ∧
    Int.tdiv (calculateDistance 0 0 1 1) 2 = 1 ∧ (3 : Int) ≠ 1 := by decide

/-- C5 (amended): every real cell of the cost matrix equals
`(dist(worker, pickup) + dist(pickup, destination) * 2) / speed` with
truncating integer division, where `dist` is the Manhattan metric. -/
theorem C5_cost_amended (elig : List Ride) (fc : List FreeChair) (i j : Nat)
    (hi : i < elig.length) (hj : j < fc.length) :
    costMatrix elig fc i j =
      Int.tdiv
        (calculateDistance (fc.getD j defaultChair).lastLat (fc.getD j defaultChair).lastLon
            (elig.getD i defaultRide).pickupLatitude (elig.getD i defaultRide).pickupLongitude +
          calculateDistance (elig.getD i defaultRide).pickupLatitude
            (elig.getD i defaultRide).pickupLongitude
            (elig.getD i defaultRide).destinationLatitude
            (elig.getD i defaultRide).destinationLongitude * 2)
        (fc.getD j defaultChair).speed := by
  unfold costMatrix rideChairCost
  rw [if_pos ⟨hi, hj⟩]

/-- C5 (witness): the amended cost formula instantiated on `store1`. -/
theorem C5_cost_witness :
    costMatrix (eligibleRides store1) (freeChairs store1) 0 0 =
      Int.tdiv
        (calculateDistance ((freeChairs store1).getD 0 defaultChair).lastLat
            ((freeChairs store1).getD 0 defaultChair).lastLon
            ((eligibleRides store1).getD 0 defaultRide).pickupLatitude
            ((eligibleRides store1).getD 0 defaultRide).pickupLongitude +
          calculateDistance ((eligibleRides store1).getD 0 defaultRide).pickupLatitude
            ((eligibleRides store1).getD 0 defaultRide).pickupLongitude
            ((eligibleRides store1).getD 0 defaultRide).destinationLatitude
            ((eligibleRides store1).getD 0 defaultRide).destinationLongitude * 2)
        ((freeChairs store1).getD 0 defaultChair).speed :=
  C5_cost_amended (eligibleRides store1) (freeChairs store1) 0 0 (by decide) (by decide)

/-! ### C6: the padding sentinel -/

/-- C6 (counterexample): on `store2` there is one eligible ride and one free
worker, yet the single real cell costs exactly the sentinel `9999999`, so
the commit filter discards a real match and the cycle commits nothing. -/
theorem C6_sentinel_counterexample :
    0 < (eligibleRides store2).length ∧ 0 < (freeChairs store2).length ∧
    costMatrix (eligibleRides store2) (freeChairs store2) 0 0 = largeCost ∧
    internalGetMatching 8 store2 = some ⟨store2, [], 204⟩ := by decide

/-- C6 (amended): provided every real cell's cost is strictly below the
sentinel (true for bounded coordinates, not in general), the commit filter
`cost < largeCost` keeps exactly the non-padding cells. -/
theorem C6_sentinel_amended (elig : List Ride) (fc : List FreeChair)
    (h : ∀ i j, i < elig.length → j < fc.length →
      rideChairCost (elig.getD i defaultRide) (fc.getD j defaultChair) < largeCost) :
    ∀ i j, (costMatrix elig fc i j < largeCost ↔ i < elig.length ∧ j < fc.length) := by
  intro i j
  unfold costMatrix
  by_cases hc : i < elig.length ∧ j < fc.length
  · rw [if_pos hc]
    exact ⟨fun _ => hc, fun _ => h i j hc.1 hc.2⟩
  · rw [if_neg hc]
    simp [hc]

/-- C6 (witness): the amended filter characterization instantiated on
`store1`, whose only real cell costs 3 < 9999999. -/
theorem C6_sentinel_witness :
    costMatrix (eligibleRides store1) (freeChairs store1) 0 0 < largeCost ↔
      0 < (eligibleRides store1).length ∧ 0 < (freeChairs store1).length :=
  C6_sentinel_amended (eligibleRides store1) (freeChairs store1)
    (by
      intro i j hi hj
      have hi' : i = 0 := by
        have : (eligibleRides store1).length = 1 := by decide
        omega
      have hj' : j = 0 := by
        have : (freeChairs store1).length = 1 := by decide
        omega
      subst hi'; subst hj'; decide) 0 0

/-! ### C9: the no-op cycle -/

/-- C9 (counterexample): a cycle with nothing to do returns HTTP 204 with
the store unchanged — but a committing cycle returns the very same 204
status, so the "nothing to do" outcome is not distinguishable from the
"assignments committed" outcome. -/
theorem C9_noop_counterexample :
    internalGetMatching 8 store0 = some ⟨store0, [], 204⟩ ∧
    (internalGetMatching 8 store1).map CycleOut.status = some 204 ∧
    (internalGetMatching 8 store1).map (fun o => o.assignments.length) = some 1 ∧
    (internalGetMatching 8 store1).map CycleOut.store ≠ some store1 := by decide

/-- C9 (amended): a cycle with zero eligible rides, zero free workers or
zero accepted assignments commits no writes (the store is returned
unchanged) and answers with the non-error 204 status — the same status a
committing cycle answers with. -/
theorem C9_noop_amended (fuel : Nat) (s : Store) (out : CycleOut)
    (h : internalGetMatching fuel s = some out)
    (hnw : eligibleRides s = [] ∨ freeChairs s = [] ∨ out.assignments = []) :
    out.store = s ∧ out.assignments = [] ∧ out.status = 204 := by
  obtain ⟨hst, hcases⟩ := internalGetMatching_cases fuel s out h
  rcases hcases with ⟨h1, h2⟩ | ⟨hne, _, res, _, hasg⟩
  · exact ⟨h1, h2, hst⟩
  · exfalso
    rcases hnw with helig | hfc | hasgnil
    · exact hne (hasg.trans (by rw [helig]; exact computeAssignments_nil _ _))
    · exact hne (hasg.trans (by rw [hfc]; exact computeAssignments_nil_fc _ _))
    · exact hne hasgnil

/-- C9 (witness): the amended no-op property instantiated on the empty
store. -/
theorem C9_noop_witness :
    store0 = store0 ∧ ([] : List (String × String)) = [] ∧ (204 : Nat) = 204 := by
  have h := C9_noop_amended 8 store0 ⟨store0, [], 204⟩ (by decide) (Or.inl (by decide))
  exact h

/-! ### C1: what the commit phase writes -/

/-- C1 (counterexample): on `store1` the cycle commits one assignment, yet
the number of `ENROUTE` rows in `ride_statuses` stays 0 — the commit phase
of the current code writes only `rides.chair_id` and appends no status
event (the claim demands exactly one new `ENROUTE` row). -/
theorem C1_commit_counterexample :
    (internalGetMatching 8 store1).map
        (fun o => (o.assignments.length,
          (o.store.rideStatuses.filter (fun e => e.status == "ENROUTE")).length)) =
      some (1, 0) := by decide

/-- C1 (amended): a committed cycle writes the worker reference onto every
assigned ride but appends no status event at all: `ride_statuses` is
unchanged (in particular zero new `ENROUTE` rows; the `ENROUTE` append
exists only in the historical greedy variant of the handler). -/
theorem C1_commit_amended (fuel : Nat) (s : Store) (out : CycleOut)
    (h : internalGetMatching fuel s = some out) :
    out.store.rideStatuses = s.rideStatuses ∧
    (WFStore s →
      ∀ a ∈ out.assignments, ∀ r' ∈ out.store.rides, r'.id = a.1 →
        r'.chairId = some a.2) := by
  obtain ⟨_, hcases⟩ := internalGetMatching_cases fuel s out h
  rcases hcases with ⟨h1, h2⟩ | ⟨_, hstore, res, _, hasg⟩
  · refine ⟨by rw [h1], ?_⟩
    intro _ a ha
    rw [h2] at ha
    cases ha
  · refine ⟨by rw [hstore]; exact applyAssignments_rideStatuses _ _, ?_⟩
    intro hWF a ha r' hr' hid
    rw [hstore, applyAssignments_rides] at hr'
    rcases List.mem_map.mp hr' with ⟨r0, _, rfl⟩
    have hfst : ((out.assignments).map Prod.fst).Nodup := by
      rw [hasg]
      exact computeAssignments_fst_nodup (eligibleRides s) (freeChairs s) res
        (eligibleRides_id_nodup s hWF)
    exact foldl_assignStep_of_mem _ _ a ha hfst (by rwa [foldl_assignStep_id] at hid)

/-- C1 (witness): the amended commit property instantiated on `store1` and
its concrete outcome. -/
theorem C1_commit_witness :
    cycleOut1.store.rideStatuses = store1.rideStatuses ∧
    (WFStore store1 →
      ∀ a ∈ cycleOut1.assignments, ∀ r' ∈ cycleOut1.store.rides, r'.id = a.1 →
        r'.chairId = some a.2) :=
  C1_commit_amended 8 store1 cycleOut1 (by decide)

/-! ### C2: no re-assignment -/

/-- C2 (counterexample): the claim says the per-assignment write is
rejected when the ride already has a worker.  It is not: the `UPDATE` has
no guard on the old value, and applied to a ride already bound to `cOld`
it overwrites the reference with `cNew`. -/
theorem C2_reassign_counterexample :
    rideC.chairId = some "cOld" ∧
    (applyAssignments store3 [("r3", "cNew")]).rides =
      [{ rideC with chairId := some "cNew" }] := by decide

/-- C2 (amended): no per-write rejection exists, but a whole cycle only
writes rides selected with `chair_id IS NULL`, so on a well-formed store a
ride row that already carries a worker reference is returned unchanged by
any committed cycle. -/
theorem C2_reassign_amended (fuel : Nat) (s : Store) (out : CycleOut)
    (hnd : (s.rides.map Ride.id).Nodup)
    (h : internalGetMatching fuel s = some out) :
    ∀ (i : Nat) (r r' : Ride), s.rides[i]? = some r → out.store.rides[i]? = some r' →
      ∀ cid, r.chairId = some cid → r' = r := by
  intro i r r' hget hget' cid hcid
  obtain ⟨_, hcases⟩ := internalGetMatching_cases fuel s out h
  rcases hcases with ⟨h1, _⟩ | ⟨_, hstore, res, _, hasg⟩
  · rw [h1, hget] at hget'
    exact (Option.some.inj hget').symm
  · rw [hstore, applyAssignments_rides] at hget'
    rw [List.getElem?_map, hget] at hget'
    have hr' : r' = out.assignments.foldl assignStep r := by
      simpa using hget'.symm
    rw [hr']
    refine foldl_assignStep_of_notMem _ _ ?_
    intro a ha hEq
    rcases mem_computeAssignments (hasg ▸ ha) with ⟨ij, _, hij1, _, _, haEq⟩
    have hidr : a.1 = ((eligibleRides s).getD ij.1 defaultRide).id := by simp [haEq]
    have hmem : (eligibleRides s).getD ij.1 defaultRide ∈ eligibleRides s := by
      rw [List.getD_eq_getElem _ _ hij1]
      exact List.getElem_mem _
    obtain ⟨hmemR, hchairNone, -⟩ := mem_eligibleRides hmem
    have hrmem : r ∈ s.rides := by
      have := List.getElem?_eq_some_iff.mp hget
      rcases this with ⟨hlt, hEq2⟩
      rw [← hEq2]; exact List.getElem_mem _
    have : r = (eligibleRides s).getD ij.1 defaultRide :=
      List.inj_on_of_nodup_map hnd hrmem hmemR (by rw [hEq]; exact hidr)
    rw [this, hchairNone] at hcid
    cases hcid

/-- C2 (witness): the amended no-re-assignment property instantiated on
`store5`, where a committing cycle leaves the already-assigned ride `r9`
untouched. -/
theorem C2_reassign_witness : rideE = rideE :=
  C2_reassign_amended 8 store5 cycleOut5 (by decide) (by decide) 1 rideE rideE
    (by decide) (by decide) "cZ" (by decide)

/-! ### C8: unschedulable workers are excluded -/

/-- C8: every assignment committed by a cycle references a chair row that is
active, has a reported coordinate (not a defaulted (0,0)) and whose model
has strictly positive speed; unschedulable chairs are filtered out without
an error outcome (the cycle still answers 204). -/
theorem C8_unschedulable_excluded (fuel : Nat) (s : Store) (out : CycleOut)
    (h : internalGetMatching fuel s = some out) :
    out.status = 204 ∧
    ∀ a ∈ out.assignments, ∃ c ∈ s.chairs, ∃ mo ∈ s.chairModels,
      c.id = a.2 ∧ mo.name = c.model ∧ c.isActive = true ∧
      (∃ la, c.lastLatitude = some la) ∧ (∃ lo, c.lastLongitude = some lo) ∧
      0 < mo.speed := by
  obtain ⟨hst, hcases⟩ := internalGetMatching_cases fuel s out h
  refine ⟨hst, ?_⟩
  intro a ha
  rcases hcases with ⟨_, h2⟩ | ⟨_, _, res, _, hasg⟩
  · rw [h2] at ha
    exact absurd ha (List.not_mem_nil a)
  · have haMem : a ∈ computeAssignments (eligibleRides s) (freeChairs s) res := hasg ▸ ha
    rcases mem_computeAssignments haMem with ⟨ij, _, _, hij2, _, haEq⟩
    have hmem : (freeChairs s).getD ij.2 defaultChair ∈ freeChairs s := by
      rw [List.getD_eq_getElem _ _ hij2]
      exact List.getElem_mem _
    obtain ⟨c, hc, mo, hmo, hid, hspeed, hname, hact, hla, hlo, hpos⟩ := mem_freeChairs hmem
    refine ⟨c, hc, mo, hmo, ?_, hname, hact, ⟨_, hla⟩, ⟨_, hlo⟩, hpos⟩
    rw [haEq, ← hid]

/-- C8 (witness): instantiated on `store1` and its outcome: the committed
assignment references chair `c1`, which is active, located and has
speed 2 > 0. -/
theorem C8_unschedulable_witness :
    cycleOut1.status = 204 ∧
    ∀ a ∈ cycleOut1.assignments, ∃ c ∈ store1.chairs, ∃ mo ∈ store1.chairModels,
      c.id = a.2 ∧ mo.name = c.model ∧ c.isActive = true ∧
      (∃ la, c.lastLatitude = some la) ∧ (∃ lo, c.lastLongitude = some lo) ∧
      0 < mo.speed :=
  C8_unschedulable_excluded 8 store1 cycleOut1 (by decide)

/-! ### C7: the eligibility read -/

theorem foldl_max_ge_acc (l : List RideStatus) (acc : Nat) :
    acc ≤ l.foldl (fun a e => max a e.createdAt) acc := by
  induction l generalizing acc with
  | nil => exact Nat.le_refl _
  | cons a t ih => exact le_trans (Nat.le_max_left _ _) (ih _)

theorem le_foldl_max (l : List RideStatus) (acc : Nat) (e : RideStatus) (he : e ∈ l) :
    e.createdAt ≤ l.foldl (fun a e => max a e.createdAt) acc := by
  induction l generalizing acc with
  | nil => cases he
  | cons a t ih =>
    rw [List.foldl_cons]
    rcases List.mem_cons.mp he with rfl | ht
    · exact le_trans (Nat.le_max_right _ _) (foldl_max_ge_acc t _)
    · exact ih _ ht

theorem foldl_max_le (l : List RideStatus) (acc k : Nat) (hacc : acc ≤ k)
    (h : ∀ e ∈ l, e.createdAt ≤ k) :
    l.foldl (fun a e => max a e.createdAt) acc ≤ k := by
  induction l generalizing acc with
  | nil => exact hacc
  | cons a t ih =>
    rw [List.foldl_cons]
    exact ih _ (Nat.max_le.mpr ⟨hacc, h a (List.mem_cons_self a t)⟩)
      (fun e he => h e (List.mem_cons_of_mem _ he))

theorem le_maxCreated {l : List RideStatus} {e : RideStatus} (he : e ∈ l) :
    e.createdAt ≤ maxCreated l :=
  le_foldl_max l 0 e he

theorem maxCreated_le {l : List RideStatus} {k : Nat} (h : ∀ e ∈ l, e.createdAt ≤ k) :
    maxCreated l ≤ k :=
  foldl_max_le l 0 k (Nat.zero_le k) h

theorem foldl_pickLater_some (l : List RideStatus) (b : RideStatus) :
    ∃ e, l.foldl pickLater (some b) = some e := by
  induction l generalizing b with
  | nil => exact ⟨b, rfl⟩
  | cons a t ih =>
    rw [List.foldl_cons]
    show ∃ e, List.foldl pickLater (if b.createdAt < a.createdAt then some a else some b) t = some e
    by_cases hlt : b.createdAt < a.createdAt
    · rw [if_pos hlt]; exact ih a
    · rw [if_neg hlt]; exact ih b

theorem foldl_pickLater_spec (l : List RideStatus) :
    ∀ (acc : Option RideStatus) (e : RideStatus), l.foldl pickLater acc = some e →
      (e ∈ l ∨ acc = some e) ∧ (∀ e' ∈ l, e'.createdAt ≤ e.createdAt) ∧
      (∀ b, acc = some b → b.createdAt ≤ e.createdAt) := by
  induction l with
  | nil =>
    intro acc e h
    refine ⟨Or.inr h, fun e' he' => absurd he' (List.not_mem_nil e'), ?_⟩
    intro b hb
    rw [hb] at h
    rw [Option.some.inj h]
  | cons a t ih =>
    intro acc e h
    rw [List.foldl_cons] at h
    obtain ⟨hmem, hmax, haccle⟩ := ih (pickLater acc a) e h
    have hstep : ∃ c, pickLater acc a = some c ∧ a.createdAt ≤ c.createdAt ∧
        (∀ b, acc = some b → b.createdAt ≤ c.createdAt) := by
      unfold pickLater
      cases acc with
      | none => exact ⟨a, rfl, Nat.le_refl _, fun b hb => by cases hb⟩
      | some b =>
        dsimp only
        by_cases hlt : b.createdAt < a.createdAt
        · rw [if_pos hlt]
          exact ⟨a, rfl, Nat.le_refl _, fun b' hb' => by
            rw [← Option.some.inj hb']; exact Nat.le_of_lt hlt⟩
        · rw [if_neg hlt]
          exact ⟨b, rfl, Nat.le_of_not_lt hlt, fun b' hb' => by
            rw [← Option.some.inj hb']⟩
    obtain ⟨c, hc, hac, haccc⟩ := hstep
    have hcle : c.createdAt ≤ e.createdAt := haccle c hc
    refine ⟨?_, ?_, ?_⟩
    · rcases hmem with hm | hm
      · exact Or.inl (List.mem_cons_of_mem _ hm)
      · rw [hc] at hm
        have hce : c = e := Option.some.inj hm
        subst hce
        have hca : c = a ∨ acc = some c := by
          unfold pickLater at hc
          cases acc with
          | none => exact Or.inl (Option.some.inj hc).symm
          | some b =>
            dsimp only at hc
            by_cases hlt : b.createdAt < a.createdAt
            · rw [if_pos hlt] at hc
              exact Or.inl (Option.some.inj hc).symm
            · rw [if_neg hlt] at hc
              exact Or.inr (by rw [Option.some.inj hc])
        rcases hca with hca | hca
        · rw [hca]
          exact Or.inl (List.mem_cons_self _ _)
        · exact Or.inr hca
    · intro e' he'
      rcases List.mem_cons.mp he' with rfl | ht
      · exact le_trans hac hcle
      · exact hmax e' ht
    · intro b hb
      exact le_trans (haccc b hb) hcle

theorem latestRows_def (s : Store) (rid : String) :
    latestRows s rid = (statusesOf s rid).filter
      (fun e => e.createdAt == maxCreated (statusesOf s rid)) := rfl

theorem latest_bridge (s : Store) (rid : String)
    (hnd : ((statusesOf s rid).map RideStatus.createdAt).Nodup) :
    (∃ e ∈ latestRows s rid, e.status = "MATCHING") ↔
      latestStatusSpec s rid = some "MATCHING" := by
  constructor
  · rintro ⟨e, he, hst⟩
    rw [latestRows_def] at he
    obtain ⟨heMem, heMax⟩ := List.mem_filter.mp he
    have heMaxEq : e.createdAt = maxCreated (statusesOf s rid) := eq_of_beq heMax
    obtain ⟨a, ha⟩ : ∃ a, (statusesOf s rid).foldl pickLater none = some a := by
      cases hl : statusesOf s rid with
      | nil => rw [hl] at heMem; cases heMem
      | cons b t =>
        rw [List.foldl_cons]
        exact foldl_pickLater_some t b
    obtain ⟨hmem, hmax, -⟩ := foldl_pickLater_spec _ none a ha
    have haMem : a ∈ statusesOf s rid := by
      rcases hmem with h | h
      · exact h
      · cases h
    have h1 : a.createdAt ≤ maxCreated (statusesOf s rid) := le_maxCreated haMem
    have h2 : e.createdAt ≤ a.createdAt := hmax e heMem
    have h3 : e.createdAt = a.createdAt := by omega
    have hea : e = a := List.inj_on_of_nodup_map hnd heMem haMem h3
    unfold latestStatusSpec
    rw [ha, ← hea]
    simpa using hst
  · intro h
    unfold latestStatusSpec at h
    cases hfold : (statusesOf s rid).foldl pickLater none with
    | none => rw [hfold] at h; cases h
    | some a =>
      rw [hfold] at h
      have hst : a.status = "MATCHING" := by simpa using h
      obtain ⟨hmem, hmax, -⟩ := foldl_pickLater_spec _ none a hfold
      have haMem : a ∈ statusesOf s rid := by
        rcases hmem with hm | hm
        · exact hm
        · cases hm
      have hle : maxCreated (statusesOf s rid) ≤ a.createdAt := maxCreated_le hmax
      have hge : a.createdAt ≤ maxCreated (statusesOf s rid) := le_maxCreated haMem
      refine ⟨a, ?_, hst⟩
      rw [latestRows_def]
      refine List.mem_filter.mpr ⟨haMem, ?_⟩
      have : a.createdAt = maxCreated (statusesOf s rid) := by omega
      simpa using this

/-- C7: the eligibility read returns exactly the rides whose latest status
event (by timestamp) is `MATCHING` and whose worker reference is unset,
without duplicates, ordered oldest-request-first by creation timestamp. -/
theorem C7_eligibility_read (s : Store) (hWF : WFStore s) :
    (∀ r : Ride, r ∈ eligibleRides s ↔
      (r ∈ s.rides ∧ r.chairId = none ∧ latestStatusSpec s r.id = some "MATCHING")) ∧
    List.Sorted (fun a b : Ride => a.createdAt ≤ b.createdAt) (eligibleRides s) ∧
    (eligibleRides s).Nodup := by
  refine ⟨?_, ?_, ?_⟩
  · intro r
    constructor
    · intro hr
      obtain ⟨h1, h2, h3⟩ := mem_eligibleRides hr
      exact ⟨h1, h2, (latest_bridge s r.id (hWF.2.2.2 r h1)).mp h3⟩
    · rintro ⟨h1, h2, h3⟩
      have h3' := (latest_bridge s r.id (hWF.2.2.2 r h1)).mpr h3
      have hjoin : r ∈ matchingJoinRows s := by
        unfold matchingJoinRows
        refine List.mem_flatMap.mpr ⟨r, h1, ?_⟩
        rw [if_pos h2]
        rcases h3' with ⟨e, he, hest⟩
        exact List.mem_map.mpr ⟨e, List.mem_filter.mpr ⟨he, by simpa using hest⟩, rfl⟩
      exact (List.perm_insertionSort _ _).mem_iff.mpr hjoin
  · exact List.sorted_insertionSort _ _
  · have hsub := matchingJoinRows_sublist s hWF.2.2.2
    have hnd : (matchingJoinRows s).Nodup := hsub.nodup (List.Nodup.of_map Ride.id hWF.1)
    exact ((List.perm_insertionSort _ _).nodup_iff).mpr hnd

/-- C7 (witness): the eligibility contract instantiated on `store1`. -/
theorem C7_eligibility_witness :
    (∀ r : Ride, r ∈ eligibleRides store1 ↔
      (r ∈ store1.rides ∧ r.chairId = none ∧
        latestStatusSpec store1 r.id = some "MATCHING")) ∧
    List.Sorted (fun a b : Ride => a.createdAt ≤ b.createdAt) (eligibleRides store1) ∧
    (eligibleRides store1).Nodup :=
  C7_eligibility_read store1 (by unfold WFStore; decide)

/-! ### Permutation structure of `hungarianMethod` -/

theorem colList_succ (n : Nat) (p : Nat → Nat) :
    colList (n + 1) p = colList n p ++ [p (n + 1)] := by
  unfold colList
  rw [List.range_succ, List.map_append]
  rfl

theorem colMS_succ (n : Nat) (p : Nat → Nat) :
    colMS (n + 1) p = colMS n p + {p (n + 1)} := by
  unfold colMS
  rw [colList_succ]
  rw [← Multiset.coe_add]
  rfl

theorem colList_congr {n : Nat} {p q : Nat → Nat}
    (h : ∀ j, 1 ≤ j → j ≤ n → p j = q j) : colList n p = colList n q := by
  unfold colList
  refine List.map_congr_left ?_
  intro jm1 hj
  exact h (jm1 + 1) (Nat.le_add_left 1 jm1) (Nat.succ_le_of_lt (List.mem_range.mp hj))

theorem mem_colMS {n k : Nat} {p : Nat → Nat} (h1 : 1 ≤ k) (h2 : k ≤ n) :
    p k ∈ colMS n p := by
  unfold colMS colList
  simp only [Multiset.mem_coe, List.mem_map]
  exact ⟨k - 1, List.mem_range.mpr (by omega), by rw [Nat.sub_add_cancel h1]⟩

theorem colMS_upd {n k : Nat} (p : Nat → Nat) (x : Nat) (h1 : 1 ≤ k) (h2 : k ≤ n) :
    colMS n (upd p k x) = x ::ₘ (colMS n p).erase (p k) := by
  induction n with
  | zero => omega
  | succ n ih =>
    rw [colMS_succ, colMS_succ]
    by_cases hk : k = n + 1
    · have hsame : colMS n (upd p k x) = colMS n p := by
        unfold colMS
        have hc := colList_congr (n := n) (p := upd p k x) (q := p)
          (fun j hj1 hjn => by unfold upd; rw [if_neg (by omega)])
        rw [hc]
      rw [hsame]
      have hupd : upd p k x (n + 1) = x := by
        unfold upd; rw [if_pos (by omega)]
      rw [hupd]
      have hpk : p k = p (n + 1) := by rw [hk]
      rw [hpk]
      have h2' : colMS n p + {p (n + 1)} = p (n + 1) ::ₘ colMS n p := by
        rw [add_comm, Multiset.singleton_add]
      rw [h2', Multiset.erase_cons_head, add_comm, Multiset.singleton_add]
    · have hkn : k ≤ n := by omega
      rw [ih hkn]
      have hlast : upd p k x (n + 1) = p (n + 1) := by
        unfold upd; rw [if_neg (by omega)]
      rw [hlast]
      have hmem : p k ∈ colMS n p := mem_colMS h1 hkn
      rw [Multiset.erase_add_left_pos _ hmem]
      rw [Multiset.cons_add]

theorem augmentLoop_spec {n : Nat} (way : Nat → Nat) (hway : WayBound n way) :
    ∀ (fuel : Nat) (p : Nat → Nat) (j0 : Nat) (p' : Nat → Nat),
      1 ≤ j0 → j0 ≤ n → augmentLoop way fuel p j0 = some p' →
      colMS n p' = p 0 ::ₘ (colMS n p).erase (p j0) ∧ p' 0 = p 0 := by
  intro fuel
  induction fuel with
  | zero => intro p j0 p' _ _ h; cases h
  | succ fuel ih =>
    intro p j0 p' hj1 hjn h
    unfold augmentLoop at h
    dsimp only at h
    by_cases hz : way j0 = 0
    · rw [if_pos hz] at h
      have hp' : p' = upd p j0 (p (way j0)) := (Option.some.inj h).symm
      rw [hz] at hp'
      subst hp'
      refine ⟨colMS_upd p (p 0) hj1 hjn, ?_⟩
      unfold upd
      rw [if_neg (by omega)]
    · rw [if_neg hz] at h
      have hw1 : 1 ≤ way j0 := Nat.one_le_iff_ne_zero.mpr hz
      have hwn : way j0 ≤ n := hway j0
      obtain ⟨hms, h0⟩ := ih (upd p j0 (p (way j0))) (way j0) p' hw1 hwn h
      have hval : upd p j0 (p (way j0)) (way j0) = p (way j0) := by
        unfold upd
        split <;> rfl
      have h00 : upd p j0 (p (way j0)) 0 = p 0 := by
        unfold upd
        rw [if_neg (by omega)]
      rw [hval, h00] at hms
      rw [h00] at h0
      rw [colMS_upd p (p (way j0)) hj1 hjn] at hms
      rw [Multiset.erase_cons_head] at hms
      exact ⟨hms, h0⟩

theorem foldl_inv {α β : Type} (f : α → β → α) (P : α → Prop) :
    ∀ (l : List β) (acc : α), P acc → (∀ a b, b ∈ l → P a → P (f a b)) → P (l.foldl f acc) := by
  intro l
  induction l with
  | nil => intro acc h _; exact h
  | cons b t ih =>
    intro acc h hstep
    rw [List.foldl_cons]
    exact ih _ (hstep acc b (List.mem_cons_self b t) h)
      (fun a b' hb' ha => hstep a b' (List.mem_cons_of_mem _ hb') ha)

theorem scanCols_bounds (c : Nat → Nat → Int) (n : Nat) (used : Nat → Bool)
    (u v : Nat → Int) (i0 j0 : Nat) (minv0 : Nat → Int) (way0 : Nat → Nat)
    (hj0 : j0 ≤ n) (hway : WayBound n way0) :
    WayBound n (scanCols c n used u v i0 j0 minv0 way0).way ∧
    (scanCols c n used u v i0 j0 minv0 way0).j1 ≤ n := by
  unfold scanCols
  refine foldl_inv _ (fun (acc : ScanOut) => WayBound n acc.way ∧ acc.j1 ≤ n) _ _
    ⟨hway, Nat.zero_le n⟩ ?_
  intro acc jm1 hjm1 hacc
  have hjn : jm1 + 1 ≤ n := Nat.succ_le_of_lt (List.mem_range.mp hjm1)
  dsimp only
  by_cases hu : used (jm1 + 1)
  · rw [if_pos hu]; exact hacc
  · rw [if_neg hu]
    have hwu : WayBound n (upd acc.way (jm1 + 1) j0) := by
      intro x
      unfold upd
      by_cases hx : x = jm1 + 1
      · rw [if_pos hx]; exact hj0
      · rw [if_neg hx]; exact hacc.1 x
    split
    · split
      · exact ⟨hwu, hjn⟩
      · exact ⟨hwu, hacc.2⟩
    · split
      · exact ⟨hacc.1, hjn⟩
      · exact ⟨hacc.1, hacc.2⟩

theorem innerLoop_some (c : Nat → Nat → Int) (n : Nat) (p : Nat → Nat) :
    ∀ (fuel : Nat) (u v minv : Nat → Int) (way : Nat → Nat) (used : Nat → Bool)
      (j0 : Nat) (io : InnerOut), WayBound n way → j0 ≤ n →
      innerLoop c n p fuel u v minv way used j0 = some io →
      p io.j0 = 0 ∧ io.j0 ≤ n ∧ WayBound n io.way := by
  intro fuel
  induction fuel with
  | zero => intro u v minv way used j0 io _ _ h; cases h
  | succ fuel ih =>
    intro u v minv way used j0 io hway hj0 h
    unfold innerLoop at h
    dsimp only at h
    obtain ⟨hwb, hj1⟩ := scanCols_bounds c n (upd used j0 true) u v (p j0) j0 minv way hj0 hway
    by_cases hbr : p (scanCols c n (upd used j0 true) u v (p j0) j0 minv way).j1 = 0
    · rw [if_pos hbr] at h
      cases h
      exact ⟨hbr, hj1, hwb⟩
    · rw [if_neg hbr] at h
      exact ih _ _ _ _ _ _ io hwb hj1 h

theorem runPhase_ms (c : Nat → Nat → Int) (n fuel i : Nat) (u v : Nat → Int)
    (p way : Nat → Nat)
    (st' : (Nat → Int) × (Nat → Int) × (Nat → Nat) × (Nat → Nat))
    (hway : WayBound n way) (hi : 1 ≤ i)
    (h : runPhase c n fuel i u v p way = some st') :
    colMS n st'.2.2.1 = i ::ₘ (colMS n p).erase 0 ∧ WayBound n st'.2.2.2 := by
  unfold runPhase at h
  dsimp only at h
  cases hinner : innerLoop c n (upd p 0 i) fuel u v
      (fun j => if j = 0 then 0 else 1000000000) way (fun _ => false) 0 with
  | none => rw [hinner] at h; cases h
  | some io =>
    rw [hinner] at h
    dsimp only at h
    obtain ⟨hbreak, hj0n, hwb⟩ :=
      innerLoop_some c n (upd p 0 i) fuel u v _ way _ 0 io hway (Nat.zero_le n) hinner
    cases haug : augmentLoop io.way fuel (upd p 0 i) io.j0 with
    | none => rw [haug] at h; cases h
    | some p2 =>
      rw [haug] at h
      cases h
      have hj01 : 1 ≤ io.j0 := by
        rcases Nat.eq_zero_or_pos io.j0 with hz | hp
        · exfalso
          rw [hz] at hbreak
          unfold upd at hbreak
          rw [if_pos rfl] at hbreak
          omega
        · exact hp
      obtain ⟨hms, -⟩ :=
        augmentLoop_spec io.way hwb fuel (upd p 0 i) io.j0 p2 hj01 hj0n haug
      have hcol : colMS n (upd p 0 i) = colMS n p := by
        unfold colMS
        rw [colList_congr (n := n) (p := upd p 0 i) (q := p)
          (fun j hj1 hjn => by unfold upd; rw [if_neg (by omega)])]
      have hp0 : upd p 0 i 0 = i := by unfold upd; rw [if_pos rfl]
      rw [hcol, hp0, hbreak] at hms
      exact ⟨hms, hwb⟩

theorem runPhasesFrom_ms (c : Nat → Nat → Int) (n fuel : Nat) :
    ∀ (l : List Nat) (st st' : (Nat → Int) × (Nat → Int) × (Nat → Nat) × (Nat → Nat)),
      (∀ i ∈ l, 1 ≤ i) → WayBound n st.2.2.2 →
      runPhasesFrom c n fuel l st = some st' →
      colMS n st'.2.2.1 = l.foldl (fun M i => i ::ₘ M.erase 0) (colMS n st.2.2.1) ∧
      WayBound n st'.2.2.2 := by
  intro l
  induction l with
  | nil =>
    intro st st' _ hway h
    cases h
    exact ⟨rfl, hway⟩
  | cons i t ih =>
    intro st st' hpos hway h
    unfold runPhasesFrom at h
    cases hph : runPhase c n fuel i st.1 st.2.1 st.2.2.1 st.2.2.2 with
    | none => rw [hph] at h; cases h
    | some st2 =>
      rw [hph] at h
      obtain ⟨hms2, hwb2⟩ := runPhase_ms c n fuel i st.1 st.2.1 st.2.2.1 st.2.2.2 st2
        hway (hpos i (List.mem_cons_self i t)) hph
      obtain ⟨hms', hwb'⟩ := ih st2 st'
        (fun i' hi' => hpos i' (List.mem_cons_of_mem _ hi')) hwb2 h
      rw [List.foldl_cons, ← hms2]
      exact ⟨hms', hwb'⟩

theorem fold_phases_ms (n : Nat) :
    ∀ k, k ≤ n →
      ((List.range k).map (· + 1)).foldl (fun M i => i ::ₘ M.erase 0)
          (Multiset.replicate n 0) =
        (((List.range k).map (· + 1) : List Nat) : Multiset Nat) +
          Multiset.replicate (n - k) 0 := by
  intro k
  induction k with
  | zero => intro _; simp
  | succ k ih =>
    intro hk
    rw [List.range_succ, List.map_append, List.foldl_append, ih (by omega)]
    dsimp only [List.foldl_cons, List.foldl_nil, List.map_cons, List.map_nil]
    have hrep : n - k = (n - (k + 1)) + 1 := by omega
    rw [hrep, Multiset.replicate_succ]
    rw [Multiset.erase_add_right_pos _ (Multiset.mem_cons_self 0 _)]
    rw [Multiset.erase_cons_head]
    have : ((((List.range k).map (· + 1) ++ [k + 1] : List Nat)) : Multiset Nat) =
        (((List.range k).map (· + 1) : List Nat) : Multiset Nat) + {k + 1} := by
      rw [← Multiset.coe_add]
      rfl
    rw [this]
    rw [← Multiset.singleton_add]
    abel

theorem foldl_upd_of_notmem (g : Nat → Nat) :
    ∀ (l : List Nat) (f0 : Nat → Nat) (x : Nat), (∀ b ∈ l, x ≠ g b) →
      (l.foldl (fun f b => upd f (g b) b) f0) x = f0 x := by
  intro l
  induction l with
  | nil => intro f0 x _; rfl
  | cons b t ih =>
    intro f0 x hx
    rw [List.foldl_cons]
    rw [ih _ x (fun b' hb' => hx b' (List.mem_cons_of_mem _ hb'))]
    unfold upd
    rw [if_neg (hx b (List.mem_cons_self b t))]

theorem foldl_upd_of_mem (g : Nat → Nat) :
    ∀ (l : List Nat) (f0 : Nat → Nat) (a : Nat), a ∈ l →
      (∀ a' ∈ l, g a' = g a → a' = a) →
      (l.foldl (fun f b => upd f (g b) b) f0) (g a) = a := by
  intro l
  induction l with
  | nil => intro f0 a ha _; cases ha
  | cons b t ih =>
    intro f0 a ha hinj
    rw [List.foldl_cons]
    by_cases hat : a ∈ t
    · exact ih _ a hat (fun a' ha' hEq => hinj a' (List.mem_cons_of_mem _ ha') hEq)
    · have hba : b = a := by
        rcases List.mem_cons.mp ha with h | h
        · exact h.symm
        · exact absurd h hat
      subst hba
      have hnone : ∀ b' ∈ t, g b ≠ g b' := by
        intro b' hb' hEq
        exact hat (hinj b' (List.mem_cons_of_mem _ hb') hEq.symm ▸ hb')
      rw [foldl_upd_of_notmem g t _ (g b) hnone]
      unfold upd
      rw [if_pos rfl]

theorem hungarianMethod_perm {fuel n : Nat} {c : Nat → Nat → Int} {res : List Nat}
    (h : hungarianMethod fuel c n = some res) :
    res.length = n ∧ res.Nodup ∧ ∀ x ∈ res, x < n := by
  unfold hungarianMethod at h
  cases hrun : runPhasesFrom c n fuel ((List.range n).map (· + 1))
      (fun _ => 0, fun _ => 0, fun _ => 0, fun _ => 0) with
  | none => rw [hrun] at h; cases h
  | some st =>
    rw [hrun] at h
    dsimp only at h
    split at h
    case isFalse => cases h
    case isTrue hcheck =>
    have hres : res = (List.range n).map
        ((List.range n).foldl (fun r jm1 => upd r (st.2.2.1 (jm1 + 1) - 1) jm1)
          (fun _ => 0)) := (Option.some.inj h).symm
    obtain ⟨hms, -⟩ := runPhasesFrom_ms c n fuel ((List.range n).map (· + 1)) _ st
      (by
        intro i hi
        rcases List.mem_map.mp hi with ⟨a, _, rfl⟩
        omega)
      (fun x => Nat.zero_le n) hrun
    have hstart : colMS n (fun _ => (0 : Nat)) = Multiset.replicate n 0 := by
      unfold colMS colList
      rw [List.map_const']
      rw [List.length_range]
      exact Multiset.coe_replicate n 0
    rw [hstart, fold_phases_ms n n (Nat.le_refl n), Nat.sub_self] at hms
    rw [Multiset.replicate_zero, add_zero] at hms
    set p := st.2.2.1 with hp
    have hperm : (colList n p).Perm ((List.range n).map (· + 1)) :=
      Multiset.coe_eq_coe.mp hms
    have hnodup : (colList n p).Nodup := by
      refine (hperm.nodup_iff).mpr ?_
      exact List.Nodup.map (fun a b hab => by omega) (List.nodup_range n)
    have hval : ∀ j, 1 ≤ j → j ≤ n → 1 ≤ p j ∧ p j ≤ n := by
      intro j h1 h2
      have hmem : p j ∈ colMS n p := mem_colMS h1 h2
      rw [hms] at hmem
      rcases List.mem_map.mp (Multiset.mem_coe.mp hmem) with ⟨a, haR, haE⟩
      have := List.mem_range.mp haR
      omega
    have hinj : ∀ a b, a < n → b < n → p (a + 1) = p (b + 1) → a = b := by
      intro a b haN hbN hE
      exact List.inj_on_of_nodup_map (f := fun jm1 => p (jm1 + 1)) (l := List.range n)
        hnodup (List.mem_range.mpr haN) (List.mem_range.mpr hbN) hE
    have hsurj : ∀ x, x < n → ∃ jm1, jm1 < n ∧ p (jm1 + 1) = x + 1 := by
      intro x hx
      have hmem : (x + 1) ∈ colMS n p := by
        rw [hms]
        exact Multiset.mem_coe.mpr (List.mem_map.mpr ⟨x, List.mem_range.mpr hx, rfl⟩)
      rcases List.mem_map.mp (Multiset.mem_coe.mp hmem) with ⟨jm1, hjm1, hje⟩
      exact ⟨jm1, List.mem_range.mp hjm1, hje⟩
    have hginj : ∀ a' ∈ List.range n, ∀ a ∈ List.range n,
        p (a' + 1) - 1 = p (a + 1) - 1 → a' = a := by
      intro a' ha' a ha hE
      have ha'n := List.mem_range.mp ha'
      have han := List.mem_range.mp ha
      have hva' := hval (a' + 1) (by omega) (by omega)
      have hva := hval (a + 1) (by omega) (by omega)
      exact hinj a' a ha'n han (by omega)
    have hresFun : ∀ x, x < n →
        ∃ jx, jx < n ∧ p (jx + 1) = x + 1 ∧
          ((List.range n).foldl (fun r jm1 => upd r (p (jm1 + 1) - 1) jm1)
            (fun _ => 0)) x = jx := by
      intro x hx
      obtain ⟨jx, hjx, hjxE⟩ := hsurj x hx
      refine ⟨jx, hjx, hjxE, ?_⟩
      have hgx : p (jx + 1) - 1 = x := by omega
      rw [← hgx]
      exact foldl_upd_of_mem (fun jm1 => p (jm1 + 1) - 1) (List.range n) _ jx
        (List.mem_range.mpr hjx) (fun a' ha' hE => hginj a' ha' jx (List.mem_range.mpr hjx) hE)
    subst hres
    refine ⟨by simp, ?_, ?_⟩
    · refine List.Nodup.map_on ?_ (List.nodup_range n)
      intro x hx y hy hE
      obtain ⟨jx, hjx, hjxE, hjxV⟩ := hresFun x (List.mem_range.mp hx)
      obtain ⟨jy, hjy, hjyE, hjyV⟩ := hresFun y (List.mem_range.mp hy)
      rw [hjxV, hjyV] at hE
      subst hE
      rw [hjxE] at hjyE
      omega
    · intro x hx
      rcases List.mem_map.mp hx with ⟨a, haR, haE⟩
      obtain ⟨ja, hja, -, hjaV⟩ := hresFun a (List.mem_range.mp haR)
      rw [← haE, hjaV]
      exact hja

theorem flatMap_map_sublist {α β γ : Type} (l : List α) (g : α → List β) (f : β → γ)
    (k : α → γ) (h : ∀ r ∈ l, g r = [] ∨ ∃ x, g r = [x] ∧ f x = k r) :
    ((l.flatMap g).map f).Sublist (l.map k) := by
  induction l with
  | nil => simp
  | cons a t ih =>
    rw [List.flatMap_cons, List.map_cons, List.map_append]
    rcases h a (List.mem_cons_self a t) with ha | ⟨x, hx, hfx⟩
    · rw [ha]
      exact (ih (fun r hr => h r (List.mem_cons_of_mem _ hr))).cons _
    · rw [hx, List.map_singleton, hfx, List.singleton_append]
      exact (ih (fun r hr => h r (List.mem_cons_of_mem _ hr))).cons₂ _

theorem chairsWithModel_id_sublist (s : Store)
    (hmodels : (s.chairModels.map ChairModel.name).Nodup) :
    ((chairsWithModel s).map (fun cm => cm.1.id)).Sublist (s.chairs.map Chair.id) := by
  unfold chairsWithModel
  refine flatMap_map_sublist _ _ _ _ ?_
  intro c _
  by_cases hact : (c.isActive && !((busyChairIds s).contains c.id)) = true
  · rw [if_pos hact]
    have hle : (s.chairModels.filter (fun m => m.name == c.model)).length ≤ 1 :=
      filter_beq_length_le _ ChairModel.name hmodels _
    rcases hl : s.chairModels.filter (fun m => m.name == c.model) with _ | ⟨m, t⟩
    · rw [hl]
      exact Or.inl rfl
    · rw [hl] at hle ⊢
      rcases t with _ | ⟨m2, t2⟩
      · exact Or.inr ⟨(c, m.speed), rfl, rfl⟩
      · simp at hle
  · rw [if_neg hact]
    exact Or.inl rfl

theorem freeChairs_id_sublist (s : Store)
    (hmodels : (s.chairModels.map ChairModel.name).Nodup) :
    ((freeChairs s).map FreeChair.id).Sublist (s.chairs.map Chair.id) := by
  refine List.Sublist.trans ?_ (chairsWithModel_id_sublist s hmodels)
  unfold freeChairs
  refine flatMap_map_sublist _ _ _ _ ?_
  intro cm _
  rcases hla : cm.1.lastLatitude with _ | la <;> rcases hlo : cm.1.lastLongitude with _ | lo
  · exact Or.inl rfl
  · exact Or.inl rfl
  · exact Or.inl rfl
  · dsimp only
    by_cases hsp : cm.2 ≤ 0
    · rw [if_pos hsp]
      exact Or.inl rfl
    · rw [if_neg hsp]
      exact Or.inr ⟨⟨cm.1.id, cm.2, la, lo⟩, rfl, rfl⟩

theorem freeChairs_id_nodup (s : Store) (hWF : WFStore s) :
    ((freeChairs s).map FreeChair.id).Nodup :=
  (freeChairs_id_sublist s hWF.2.2.1).nodup hWF.2.1

/-- C3: the pairing committed by a cycle references each ride at most once
and each worker at most once; nothing is committed when the free-worker
pool is empty; and every committed pair is a real (non-padding) pair whose
cost is strictly below the sentinel. -/
theorem C3_solver_injective (fuel : Nat) (s : Store) (out : CycleOut) (hWF : WFStore s)
    (h : internalGetMatching fuel s = some out) :
    (out.assignments.map Prod.fst).Nodup ∧
    (out.assignments.map Prod.snd).Nodup ∧
    (freeChairs s = [] → out.assignments = []) ∧
    (∀ a ∈ out.assignments, ∃ r ∈ eligibleRides s, ∃ ch ∈ freeChairs s,
      a = (r.id, ch.id) ∧ rideChairCost r ch < largeCost) := by
  obtain ⟨_, hcases⟩ := internalGetMatching_cases fuel s out h
  rcases hcases with ⟨_, h2⟩ | ⟨hne, _, res, hhun, hasg⟩
  · rw [h2]
    exact ⟨List.nodup_nil, List.nodup_nil, fun _ => rfl,
      fun a ha => absurd ha (List.not_mem_nil a)⟩
  · obtain ⟨-, hresnd, -⟩ := hungarianMethod_perm hhun
    refine ⟨?_, ?_, ?_, ?_⟩
    · rw [hasg]
      exact computeAssignments_fst_nodup _ _ _ (eligibleRides_id_nodup s hWF)
    · rw [hasg]
      exact computeAssignments_snd_nodup _ _ _ hresnd (freeChairs_id_nodup s hWF)
    · intro hfc
      exact absurd (hasg.trans (by rw [hfc]; exact computeAssignments_nil_fc _ _)) hne
    · intro a ha
      rcases mem_computeAssignments (hasg ▸ ha) with ⟨ij, _, hij1, hij2, hcost, haEq⟩
      have hmemR : (eligibleRides s).getD ij.1 defaultRide ∈ eligibleRides s := by
        rw [List.getD_eq_getElem _ _ hij1]
        exact List.getElem_mem _
      have hmemC : (freeChairs s).getD ij.2 defaultChair ∈ freeChairs s := by
        rw [List.getD_eq_getElem _ _ hij2]
        exact List.getElem_mem _
      refine ⟨_, hmemR, _, hmemC, haEq, ?_⟩
      unfold costMatrix at hcost
      rw [if_pos ⟨hij1, hij2⟩] at hcost
      exact hcost

/-- C3 (witness): the injectivity and filter properties instantiated on
`store1` and its concrete outcome. -/
theorem C3_solver_witness :
    (cycleOut1.assignments.map Prod.fst).Nodup ∧
    (cycleOut1.assignments.map Prod.snd).Nodup ∧
    (freeChairs store1 = [] → cycleOut1.assignments = []) ∧
    (∀ a ∈ cycleOut1.assignments, ∃ r ∈ eligibleRides store1, ∃ ch ∈ freeChairs store1,
      a = (r.id, ch.id) ∧ rideChairCost r ch < largeCost) :=
  C3_solver_injective 8 store1 cycleOut1 (by unfold WFStore; decide) (by decide)

/-! ### C4 and C10: the solver on 2×2 matrices -/

theorem upd_at {α : Type} (f : Nat → α) (k : Nat) (x : α) : upd f k x k = x := by
  unfold upd; rw [if_pos rfl]

theorem upd_at_ne {α : Type} (f : Nat → α) (k : Nat) (x : α) (j : Nat) (h : j ≠ k) :
    upd f k x j = f j := by
  unfold upd; rw [if_neg h]

/-- Complete symbolic run of `hungarianMethod` on a 2×2 matrix with entries
below the internal infinity `1000000000`: it finishes within `n + 1 = 3`
inner-loop iterations per phase and picks the cheaper of the two pairings
(either one at a tie). -/
theorem hungarian2x2 (a b c d : Int)
    (ha0 : 0 ≤ a) (ha1 : a < 1000000000) (hb0 : 0 ≤ b) (hb1 : b < 1000000000)
    (hc0 : 0 ≤ c) (hc1 : c < 1000000000) (hd0 : 0 ≤ d) (hd1 : d < 1000000000) :
    ∃ res, hungarianMethod 3 (matOf [[a, b], [c, d]]) 2 = some res ∧
      ((res = [0, 1] ∧ a + d ≤ b + c) ∨ (res = [1, 0] ∧ b + c ≤ a + d)) := by
  by_cases hba : b < a
  · by_cases hdc : d < c
    · by_cases hkey : a - b < c - d
      · refine ⟨[0, 1], ?_, Or.inl ⟨rfl, by omega⟩⟩
        have hx1 : a - b < 1000000000 := by omega
        simp [hungarianMethod, runPhasesFrom, runPhase, innerLoop, augmentLoop,
          scanCols, applyDelta, upd, matOf, List.range_succ,
          ha1, hb1, hc1, hd1, hba, hdc, hkey, hx1]
      · refine ⟨[1, 0], ?_, Or.inr ⟨rfl, by omega⟩⟩
        have hx1 : c - d < 1000000000 := by omega
        simp [hungarianMethod, runPhasesFrom, runPhase, innerLoop, augmentLoop,
          scanCols, applyDelta, upd, matOf, List.range_succ,
          ha1, hb1, hc1, hd1, hba, hdc, hkey, hx1]
    · refine ⟨[1, 0], ?_, Or.inr ⟨rfl, by omega⟩⟩
      simp [hungarianMethod, runPhasesFrom, runPhase, innerLoop, augmentLoop,
        scanCols, applyDelta, upd, matOf, List.range_succ,
        ha1, hb1, hc1, hd1, hba, hdc]
  · by_cases hdc : d < c
    · refine ⟨[0, 1], ?_, Or.inl ⟨rfl, by omega⟩⟩
      simp [hungarianMethod, runPhasesFrom, runPhase, innerLoop, augmentLoop,
        scanCols, applyDelta, upd, matOf, List.range_succ,
        ha1, hb1, hc1, hd1, hba, hdc]
    · by_cases hkey : b - a < d - c
      · refine ⟨[1, 0], ?_, Or.inr ⟨rfl, by omega⟩⟩
        have hx1 : b - a < 1000000000 := by omega
        simp [hungarianMethod, runPhasesFrom, runPhase, innerLoop, augmentLoop,
          scanCols, applyDelta, upd, matOf, List.range_succ,
          ha1, hb1, hc1, hd1, hba, hdc, hkey, hx1]
      · refine ⟨[0, 1], ?_, Or.inl ⟨rfl, by omega⟩⟩
        have hx1 : d - c < 1000000000 := by omega
        simp [hungarianMethod, runPhasesFrom, runPhase, innerLoop, augmentLoop,
          scanCols, applyDelta, upd, matOf, List.range_succ,
          ha1, hb1, hc1, hd1, hba, hdc, hkey, hx1]

/-- C4 (counterexample): on the 2×2 matrix `[[1, 10^9], [1, 2*10^9]]` the
solver returns the identity pairing with total `1 + 2*10^9`, strictly more
than the swapped pairing's total `10^9 + 1` — the output is not a
minimum-total-cost pairing once entries reach the internal `10^9` bound. -/
theorem C4_optimal_counterexample :
    hungarianMethod 50 (matOf matC4) 2 = some [0, 1] ∧
    matOf matC4 0 1 + matOf matC4 1 0 <
      matOf matC4 0 0 + matOf matC4 1 1 := by decide

/-- C4 (amended): for every 2×2 cost matrix with entries in `[0, 10^9)` the
solver's pairing has total cost less than or equal to the only other
complete pairing (minimality fails in general once an entry reaches the
internal infinity `10^9`). -/
theorem C4_optimal_amended (a b c d : Int)
    (ha0 : 0 ≤ a) (ha1 : a < 1000000000) (hb0 : 0 ≤ b) (hb1 : b < 1000000000)
    (hc0 : 0 ≤ c) (hc1 : c < 1000000000) (hd0 : 0 ≤ d) (hd1 : d < 1000000000) :
    ∃ res, hungarianMethod 3 (matOf [[a, b], [c, d]]) 2 = some res ∧
      ((res = [0, 1] ∧ a + d ≤ b + c) ∨ (res = [1, 0] ∧ b + c ≤ a + d)) :=
  hungarian2x2 a b c d ha0 ha1 hb0 hb1 hc0 hc1 hd0 hd1

/-- C4 (witness): the amended minimality property at the concrete matrix
`[[0, 5], [7, 2]]`. -/
theorem C4_optimal_witness :
    ∃ res, hungarianMethod 3 (matOf [[0, 5], [7, 2]]) 2 = some res ∧
      ((res = [0, 1] ∧ (0 : Int) + 2 ≤ 5 + 7) ∨ (res = [1, 0] ∧ (5 : Int) + 7 ≤ 0 + 2)) :=
  C4_optimal_amended 0 5 7 2 (by decide) (by decide) (by decide) (by decide)
    (by decide) (by decide) (by decide) (by decide)

/-- C10 (counterexample): on `[[2*10^9, 0], [10^9, -1184087519]]` the solver
does not finish when every loop is budgeted `n + 1 = 3` iterations (a phase
stalls and re-marks column 0), yet it does terminate given more fuel — so
the claimed "at most n+1 iterations per row" mechanism is false while
totality still holds on this input. -/
theorem C10_termination_counterexample :
    hungarianMethod 3 (matOf matC10) 2 = none ∧
    hungarianMethod 50 (matOf matC10) 2 = some [0, 1] := by decide

/-- C10 (amended): for 2×2 matrices with entries in `[0, 10^9)` the solver
terminates within the claimed `n + 1` iteration budget per row; the budget
can be exceeded (and the fuel-free Go loop run longer) once entries reach
the internal infinity `10^9`. -/
theorem C10_termination_amended (a b c d : Int)
    (ha0 : 0 ≤ a) (ha1 : a < 1000000000) (hb0 : 0 ≤ b) (hb1 : b < 1000000000)
    (hc0 : 0 ≤ c) (hc1 : c < 1000000000) (hd0 : 0 ≤ d) (hd1 : d < 1000000000) :
    ∃ res, hungarianMethod 3 (matOf [[a, b], [c, d]]) 2 = some res := by
  obtain ⟨res, hres, -⟩ := hungarian2x2 a b c d ha0 ha1 hb0 hb1 hc0 hc1 hd0 hd1
  exact ⟨res, hres⟩

/-- C10 (witness): the amended termination property at `[[3, 1], [4, 1]]`. -/
theorem C10_termination_witness :
    ∃ res, hungarianMethod 3 (matOf [[3, 1], [4, 1]]) 2 = some res :=
  C10_termination_amended 3 1 4 1 (by decide) (by decide) (by decide) (by decide)
    (by decide) (by decide) (by decide) (by decide)
